import Mathlib

/-!
Verification of the taxonomy core of the unikmer repository (`taxonomy.go`).

The Go code is shallowly embedded:
* Go `map[uint32]uint32` / `map[uint32]struct{}` become functions
  `Nat → Option Nat` / `Nat → Bool` updated functionally (last write wins,
  like a Go map assignment).
* Go `uint32(x)` conversions of parsed integers are modelled by `% 2^32`
  on the integer value.
* The streaming reader (`breader`) is modelled by a list of input lines;
  the Go loop aborts at the first parse error and discards the partially
  built local map, so parsing-then-building is extensionally the same
  computation and is embedded in those two stages.
* A Go `panic` (out-of-range slice index) is a distinct outcome
  constructor, never conflated with an `error` return value.
* The unbounded `for` loops inside `Taxonomy.LCA` are embedded with an
  explicit fuel argument; `none` means the Go loop did not return within
  the given fuel (in Go it would still be running).
-/

/-- Go `minInt(a, vals...)` from taxonomy.go: minimum of its arguments. -/
def minInt (a : Nat) (vals : List Nat) : Nat :=
  vals.foldl (fun m v => if v < m then v else m) a

/-- Whitespace recognizer used by Go `strings.TrimSpace` (ASCII part). -/
def isSpc (c : Char) : Bool :=
  c = ' ' || c = '\t' || c = '\n' || c = '\r' || c = '\x0b' || c = '\x0c'

/-- Go `strings.TrimSpace`: strip leading and trailing whitespace. -/
def trimChars (cs : List Char) : List Char :=
  ((cs.dropWhile isSpc).reverse.dropWhile isSpc).reverse

/-- Go `strings.Split(line, "\t")`: split on tab; `Split("",sep) = [""]`. -/
def splitTab : List Char → List (List Char)
  | [] => [[]]
  | c :: rest =>
    let r := splitTab rest
    if c = '\t' then [] :: r
    else
      match r with
      | [] => [[c]]
      | f :: fs => (c :: f) :: fs

/-- Digit run of Go `strconv.Atoi`: all-digit nonempty string to a number. -/
def digitsToNat (s : List Char) : Option Nat :=
  if s = [] then none
  else s.foldl
    (fun acc c => acc.bind fun n => if c.isDigit then some (n * 10 + (c.toNat - '0'.toNat)) else none)
    (some 0)

/-- Go `strconv.Atoi`: optional sign followed by decimal digits.
(The int64 range check of `Atoi` is not modelled; taxids in scope are far
below it.) -/
def atoi : List Char → Option Int
  | [] => none
  | '+' :: rest => (digitsToNat rest).map Int.ofNat
  | '-' :: rest => (digitsToNat rest).map (fun n => -(n : Int))
  | s => (digitsToNat s).map Int.ofNat

/-- Go `uint32(i)` conversion of an `int`: value modulo `2^32`. -/
def u32 (i : Int) : Nat := (i % (2 ^ 32 : Int)).toNat

/-- Outcome of one `parseFunc` call on one line: skipped line, parse
error (`strconv.Atoi` failure), Go runtime panic (slice index out of
range), or a parsed record. -/
inductive ParseOut (α : Type) where
  | skip
  | perr
  | panicked
  | item (a : α)
deriving DecidableEq

/-- The `parseFunc` of `NewTaxonomy` / `NewTaxonomyWithRank` restricted to
the two node columns (1-based, as passed to the API; the Go code
decrements them before indexing). Mirrors taxonomy.go lines 88-106:
note the guard uses `minInt` of the column indices, so a line with at
least `min` but fewer than `max` fields reaches the out-of-range index
(`panicked`). -/
def nodesParseLine (childColumn parentColumn : Nat) (line : List Char) : ParseOut (Nat × Nat) :=
  let minColumns := minInt childColumn [parentColumn]
  let l := trimChars line
  if l = [] then .skip
  else
    let items := splitTab l
    if items.length < minColumns then .skip
    else
      match items.get? (childColumn - 1) with
      | none => .panicked
      | some cs =>
        match atoi cs with
        | none => .perr
        | some child =>
          match items.get? (parentColumn - 1) with
          | none => .panicked
          | some ps =>
            match atoi ps with
            | none => .perr
            | some parent => .item (u32 child, u32 parent)

/-- The `parseFunc` of `NewTaxonomyWithRank` (taxonomy.go lines 163-181):
same as `nodesParseLine` but also yields the rank column's field.
`minColumns` is `minInt` of all three 1-based columns. -/
def rankParseLine (childColumn parentColumn rankColumn : Nat) (line : List Char) :
    ParseOut (Nat × Nat × String) :=
  let minColumns := minInt childColumn [parentColumn, rankColumn]
  let l := trimChars line
  if l = [] then .skip
  else
    let items := splitTab l
    if items.length < minColumns then .skip
    else
      match items.get? (childColumn - 1) with
      | none => .panicked
      | some cs =>
        match atoi cs with
        | none => .perr
        | some child =>
          match items.get? (parentColumn - 1) with
          | none => .panicked
          | some ps =>
            match atoi ps with
            | none => .perr
            | some parent =>
              match items.get? (rankColumn - 1) with
              | none => .panicked
              | some rk => .item (u32 child, u32 parent, String.mk rk)

/-- Outcome of streaming a whole file through a `parseFunc`: the list of
parsed records, or the first parse error, or a runtime panic. -/
inductive LinesOut (α : Type) where
  | ok (recs : List α)
  | perr
  | panicked
deriving DecidableEq

/-- Run a `parseFunc` over all lines in order, stopping at the first
error (the breader pipeline surfaces the first error and the partially
filled local structures are discarded by the caller). -/
def collectRecs {α : Type} (pf : List Char → ParseOut α) : List (List Char) → LinesOut α
  | [] => .ok []
  | l :: ls =>
    match pf l with
    | .skip => collectRecs pf ls
    | .perr => .perr
    | .panicked => .panicked
    | .item a =>
      match collectRecs pf ls with
      | .ok as => .ok (a :: as)
      | .perr => .perr
      | .panicked => .panicked

/-- Errors of the taxonomy core (taxonomy.go lines 58-65, plus an I/O
error standing for `breader.NewBufferedReader` failing to open the
file). -/
inductive TaxErr where
  | illegalColumnIndex
  | parseFail
  | tooManyRanks
  | openFail
deriving DecidableEq

/-- The `Taxonomy` struct (taxonomy.go lines 33-56). Maps are embedded as
functions; `Ranks map[string]interface{}` as a membership predicate.
The `lcaCache sync.Map` lives outside the struct in this embedding (it
is threaded explicitly through `lcaCached`). -/
structure Taxonomy where
  rootNode : Nat
  Nodes : Nat → Option Nat
  DelNodes : Nat → Bool
  MergeNodes : Nat → Option Nat
  taxid2rankid : Nat → Option Nat
  ranks : List String
  Ranks : String → Bool
  hasRanks : Bool
  hasDelNodes : Bool
  hasMergeNodes : Bool
  cacheLCA : Bool
  maxTaxid : Nat

/-- `Taxonomy.MaxTaxid` (taxonomy.go lines 351-353). -/
def Taxonomy.MaxTaxid (t : Taxonomy) : Nat := t.maxTaxid

/-- Map update, i.e. Go `m[k] = v`. -/
def upd (m : Nat → Option Nat) (k v : Nat) : Nat → Option Nat :=
  fun x => if x = k then some v else m x

/-- The zero-value `Taxonomy` all builders start from. -/
def defaultTax : Taxonomy :=
  { rootNode := 0
    Nodes := fun _ => none
    DelNodes := fun _ => false
    MergeNodes := fun _ => none
    taxid2rankid := fun _ => none
    ranks := []
    Ranks := fun _ => false
    hasRanks := false
    hasDelNodes := false
    hasMergeNodes := false
    cacheLCA := false
    maxTaxid := 0 }

/-- Result of a constructor call: a store, an error, or a runtime panic. -/
inductive BuildOut where
  | ok (t : Taxonomy)
  | bad (e : TaxErr)
  | panicked

/-- Did the constructor call end in a Go runtime panic? -/
def BuildOut.isPanic : BuildOut → Bool
  | .panicked => true
  | _ => false

/-- `MaxTaxid()` of the built store, when the build succeeded. -/
def maxTaxidOf : BuildOut → Option Nat
  | .ok t => some t.MaxTaxid
  | _ => none

/-- The record loop of `NewTaxonomy` (taxonomy.go lines 119-135): insert
`nodes[child] = parent`, record the root on a self-loop, and track the
maximum over the child taxids. -/
def buildNodesLoop : List (Nat × Nat) → (Nat → Option Nat) → Nat → Nat → ((Nat → Option Nat) × Nat × Nat)
  | [], nodes, root, maxT => (nodes, root, maxT)
  | (c, p) :: rest, nodes, root, maxT =>
    buildNodesLoop rest (upd nodes c p) (if c = p then c else root) (if maxT < c then c else maxT)

/-- `NewTaxonomy(file, childColumn, parentColumn)` over the file's lines. -/
def newTaxonomy (lines : List (List Char)) (childColumn parentColumn : Nat) : BuildOut :=
  if childColumn < 1 ∨ parentColumn < 1 then .bad .illegalColumnIndex
  else
    match collectRecs (nodesParseLine childColumn parentColumn) lines with
    | .perr => .bad .parseFail
    | .panicked => .panicked
    | .ok recs =>
      let r := buildNodesLoop recs (fun _ => none) 0 0
      .ok { defaultTax with Nodes := r.1, rootNode := r.2.1, maxTaxid := r.2.2 }

/-- Loop state of `NewTaxonomyWithRank` (taxonomy.go lines 188-201). -/
structure RState where
  nodes : Nat → Option Nat
  root : Nat
  maxT : Nat
  t2r : Nat → Option Nat
  ranks : List String
  r2r : String → Option Nat
  rset : String → Bool

/-- Initial state of the rank-aware builder. -/
def rinit : RState :=
  { nodes := fun _ => none, root := 0, maxT := 0, t2r := fun _ => none
    ranks := [], r2r := fun _ => none, rset := fun _ => false }

/-- One iteration of the record loop of `NewTaxonomyWithRank`
(taxonomy.go lines 206-229): update nodes/root/max, then either reuse
the rank's id or append the new rank, failing with `TooManyRanks` when
the rank list would exceed 255 entries. `uint8(...)` truncation is the
`% 256`. -/
def rstep (st : RState) (r : Nat × Nat × String) : Except TaxErr RState :=
  let c := r.1
  let p := r.2.1
  let rk := r.2.2
  let st1 : RState :=
    { st with
      nodes := upd st.nodes c p
      root := if c = p then c else st.root
      maxT := if st.maxT < c then c else st.maxT }
  match st.r2r rk with
  | some rankid => .ok { st1 with t2r := upd st1.t2r c (rankid % 256) }
  | none =>
    let ranks' := st.ranks ++ [rk]
    if 255 < ranks'.length then .error .tooManyRanks
    else
      .ok { st1 with
        ranks := ranks'
        r2r := fun s => if s = rk then some (ranks'.length - 1) else st.r2r s
        t2r := upd st1.t2r c ((ranks'.length - 1) % 256)
        rset := fun s => if s = rk then true else st.rset s }

/-- The record loop of `NewTaxonomyWithRank`, aborting at the first
error. -/
def buildRankLoop : List (Nat × Nat × String) → RState → Except TaxErr RState
  | [], st => .ok st
  | r :: rest, st =>
    match rstep st r with
    | .error e => .error e
    | .ok st' => buildRankLoop rest st'

/-- `NewTaxonomyWithRank` restricted to its record-processing stage:
build a rank-aware store from the already parsed `(child, parent, rank)`
records (taxonomy.go lines 188-234). -/
def buildWithRank (recs : List (Nat × Nat × String)) : Except TaxErr Taxonomy :=
  (buildRankLoop recs rinit).map fun st =>
    { defaultTax with
      Nodes := st.nodes
      rootNode := st.root
      maxTaxid := st.maxT
      taxid2rankid := st.t2r
      ranks := st.ranks
      Ranks := st.rset
      hasRanks := true }

/-- `NewTaxonomyWithRank(file, c, p, r)` over the file's lines. -/
def newTaxonomyWithRank (lines : List (List Char)) (childColumn parentColumn rankColumn : Nat) :
    BuildOut :=
  if childColumn < 1 ∨ parentColumn < 1 ∨ rankColumn < 1 then .bad .illegalColumnIndex
  else
    match collectRecs (rankParseLine childColumn parentColumn rankColumn) lines with
    | .perr => .bad .parseFail
    | .panicked => .panicked
    | .ok recs =>
      match buildWithRank recs with
      | .error e => .bad e
      | .ok t => .ok t

/-- Result of `Taxonomy.Rank`: the Go method either panics
(`ErrRankNotLoaded`, or an out-of-range slice index) or returns a
string. -/
inductive RankOut where
  | panicked
  | strv (s : String)
deriving DecidableEq

/-- `Taxonomy.Rank` (taxonomy.go lines 237-245): panic when ranks were
not loaded; otherwise look the taxid up in the rank-id table and index
the rank list (an out-of-range id would also panic), returning `""` for
an unknown taxid. -/
def rankOf (t : Taxonomy) (taxid : Nat) : RankOut :=
  if t.hasRanks = false then .panicked
  else
    match t.taxid2rankid taxid with
    | some i =>
      match t.ranks.get? i with
      | some s => .strv s
      | none => .panicked
    | none => .strv ""

/-- The `parseFunc` of `LoadMergedNodes` (taxonomy.go lines 265-279).
There is no empty-line fast path here; `minColumns` is the maximum of
the two 1-based columns (computed inline in Go), so the indexing below
is always in range for unskipped lines. -/
def mergedParseLine (oldColumn newColumn minColumns : Nat) (line : List Char) :
    ParseOut (Nat × Nat) :=
  let items := splitTab (trimChars line)
  if items.length < minColumns then .skip
  else
    match items.get? (oldColumn - 1) with
    | none => .panicked
    | some os =>
      match atoi os with
      | none => .perr
      | some o =>
        match items.get? (newColumn - 1) with
        | none => .panicked
        | some ns =>
          match atoi ns with
          | none => .perr
          | some n => .item (u32 o, u32 n)

/-- Records parsed from a merged-nodes file. -/
def mergedRecs (oldColumn newColumn : Nat) (lines : List (List Char)) : LinesOut (Nat × Nat) :=
  collectRecs
    (mergedParseLine oldColumn newColumn (if oldColumn < newColumn then newColumn else oldColumn))
    lines

/-- Build a map from a pair list, first to last (last write wins). -/
def mapOfPairs (l : List (Nat × Nat)) : Nat → Option Nat :=
  l.foldl (fun m pr => upd m pr.1 pr.2) (fun _ => none)

/-- `Taxonomy.LoadMergedNodes` (taxonomy.go lines 253-302). `openOk`
models whether `breader.NewBufferedReader` could open the file. The
local map `m` is assigned to `t.MergeNodes` (with `hasMergeNodes` set)
only after the whole file parsed without error. -/
def loadMergedNodes (t : Taxonomy) (oldColumn newColumn : Nat) (openOk : Bool)
    (lines : List (List Char)) : Taxonomy × Option TaxErr :=
  if oldColumn < 1 ∨ newColumn < 1 then (t, some .illegalColumnIndex)
  else if openOk = false then (t, some .openFail)
  else
    match mergedRecs oldColumn newColumn lines with
    | .perr => (t, some .parseFail)
    | .panicked => (t, some .parseFail)  -- unreachable: the max-column guard keeps indexing in range
    | .ok prs => ({ t with MergeNodes := mapOfPairs prs, hasMergeNodes := true }, none)

/-- The `parseFunc` of `LoadDeletedNodes` (taxonomy.go lines 315-325). -/
def delParseLine (column : Nat) (line : List Char) : ParseOut Nat :=
  let items := splitTab (trimChars line)
  if items.length < column then .skip
  else
    match items.get? (column - 1) with
    | none => .panicked
    | some s =>
      match atoi s with
      | none => .perr
      | some i => .item (u32 i)

/-- Records parsed from a deleted-nodes file. -/
def delRecs (column : Nat) (lines : List (List Char)) : LinesOut Nat :=
  collectRecs (delParseLine column) lines

/-- Build a membership set from an id list. -/
def setOfIds (l : List Nat) : Nat → Bool :=
  l.foldl (fun s i => fun x => if x = i then true else s x) (fun _ => false)

/-- `Taxonomy.LoadDeletedNodes` (taxonomy.go lines 310-348). -/
def loadDeletedNodes (t : Taxonomy) (column : Nat) (openOk : Bool)
    (lines : List (List Char)) : Taxonomy × Option TaxErr :=
  if column < 1 then (t, some .illegalColumnIndex)
  else if openOk = false then (t, some .openFail)
  else
    match delRecs column lines with
    | .perr => (t, some .parseFail)
    | .panicked => (t, some .parseFail)  -- unreachable: the column guard keeps indexing in range
    | .ok ids => ({ t with DelNodes := setOfIds ids, hasDelNodes := true }, none)

/-- One resolution step of the `LCA` walks (taxonomy.go lines 393-414 and
433-454): look the child up in `Nodes`; on a miss, apply a single
merge-map substitution (when loaded) and retry. Returns the (possibly
substituted) child together with its parent, or `none` when the walk
must report an unresolvable taxid. -/
def step (S : Taxonomy) (child : Nat) : Option (Nat × Nat) :=
  match S.Nodes child with
  | some p => some (child, p)
  | none =>
    if S.hasMergeNodes then
      match S.MergeNodes child with
      | some nt =>
        match S.Nodes nt with
        | some p => some (nt, p)
        | none => none
      | none => none
    else none

/-- Outcome of walk A of `LCA` (taxonomy.go lines 392-430): fuel ran out
(the Go loop is still running), unresolvable taxid (`return 0`), `b` hit
as an ancestor of `a` (`return b`), or the root was reached with the
collected ancestor set `mA` (the parallel `lineA` slice is written but
never read afterwards, so it is not carried here). -/
inductive WalkA where
  | out
  | failed
  | foundB
  | done (mA : List Nat)
deriving DecidableEq

/-- Walk A: climb from `a` to the root, recording each parent in `mA`,
short-circuiting when a parent equals `b`. -/
def walkA (S : Taxonomy) (b : Nat) : Nat → Nat → List Nat → WalkA
  | 0, _, _ => .out
  | f + 1, child, mA =>
    match step S child with
    | none => .failed
    | some (c', p) =>
      if p = c' then .done (p :: mA)
      else if p = b then .foundB
      else walkA S b f p (p :: mA)

/-- Outcome of walk B of `LCA` (taxonomy.go lines 432-473). -/
inductive WalkB where
  | out
  | failed
  | foundA
  | hit (p : Nat)
  | root
deriving DecidableEq

/-- Walk B: climb from `b`, returning on the first parent equal to `a`
or contained in `mA`; reaching the root's self-loop falls through to
`return t.rootNode`. -/
def walkB (S : Taxonomy) (a : Nat) (mA : List Nat) : Nat → Nat → WalkB
  | 0, _ => .out
  | f + 1, child =>
    match step S child with
    | none => .failed
    | some (c', p) =>
      if p = c' then .root
      else if p = a then .foundA
      else if p ∈ mA then .hit p
      else walkB S a mA f p

/-- Value returned by `LCA` for each walk-B outcome. -/
def wbVal (S : Taxonomy) (a : Nat) : WalkB → Option Nat
  | .out => none
  | .failed => some 0
  | .foundA => some a
  | .hit p => some p
  | .root => some S.rootNode

/-- `Taxonomy.LCA(a, b)` with caching disabled (taxonomy.go lines
364-475 with `t.cacheLCA == false`): fast paths for `0` and `a == b`,
then walk A followed by walk B. `none` means the Go call has not
returned within `fuel` loop iterations. -/
def lcaCore (S : Taxonomy) (fuel a b : Nat) : Option Nat :=
  if a = 0 ∨ b = 0 then some 0
  else if a = b then some a
  else
    match walkA S b fuel a [] with
    | .out => none
    | .failed => some 0
    | .foundB => some b
    | .done mA => wbVal S a (walkB S a mA fuel b)

/-- `pack2uint32` (taxonomy.go lines 477-482): order-insensitive cache
key, smaller id in the high 32 bits. -/
def pack (a b : Nat) : Nat :=
  if a < b then a * 2 ^ 32 + b else b * 2 ^ 32 + a

/-- `Taxonomy.LCA(a, b)` with caching enabled (`CacheLCA` was called):
consult the cache after the fast paths; on a miss run the walks and
store the result under the packed key at each `return` site — except the
final `return t.rootNode`, which Go leaves uncached. Returns the value
together with the updated cache. -/
def lcaCached (S : Taxonomy) (C : Nat → Option Nat) (fuel a b : Nat) :
    Option Nat × (Nat → Option Nat) :=
  if a = 0 ∨ b = 0 then (some 0, C)
  else if a = b then (some a, C)
  else
    let q := pack a b
    match C q with
    | some v => (some v, C)
    | none =>
      match walkA S b fuel a [] with
      | .out => (none, C)
      | .failed => (some 0, upd C q 0)
      | .foundB => (some b, upd C q b)
      | .done mA =>
        match walkB S a mA fuel b with
        | .out => (none, C)
        | .failed => (some 0, upd C q 0)
        | .foundA => (some a, upd C q a)
        | .hit p => (some p, upd C q p)
        | .root => (some S.rootNode, C)

/-- A well-formed store in the sense of spec §3, witnessed by a depth
function: the recorded root is a self-loop, and every non-root key's
parent is again a key, one depth level up. This forces the self-loop to
be unique, forbids non-root cycles and dangling parents, and makes every
parent chain reach `rootNode`. -/
def WfT (S : Taxonomy) (d : Nat → Nat) : Prop :=
  S.Nodes S.rootNode = some S.rootNode ∧
  ∀ x p, S.Nodes x = some p → x ≠ S.rootNode → (S.Nodes p).isSome = true ∧ d x = d p + 1

/-- The strict parent chain of `c`: the parents visited by the walks up
to and including the root, `none` when the chain does not complete
within the fuel (or hits a missing key). Specification device for the
walk lemmas. -/
def parentsL (S : Taxonomy) : Nat → Nat → Option (List Nat)
  | 0, _ => none
  | f + 1, c =>
    match S.Nodes c with
    | none => none
    | some p => if p = c then some [] else (parentsL S f p).map (p :: ·)

/-- A cache all of whose entries agree with the uncached `LCA` at fuel
`F`; such caches are exactly those producible by earlier (terminating)
`LCA` calls on the same store. -/
def cacheValidF (S : Taxonomy) (F : Nat) (C : Nat → Option Nat) : Prop :=
  ∀ a b v, a < 2 ^ 32 → b < 2 ^ 32 → a ≠ 0 → b ≠ 0 → a ≠ b →
    C (pack a b) = some v → lcaCore S F a b = some v

/-- Concrete stores used by counterexamples and witnesses. `cxStore` has a
dangling parent: `Nodes = {2 ↦ 7}` with `7` not a key. -/
def cxStore : Taxonomy := { defaultTax with Nodes := fun x => if x = 2 then some 7 else none }

/-- A small well-formed store: `1 ← 2 ← {3, 4}` with root `1` and a
merge mapping `9 ↦ 3`. -/
def wfStore : Taxonomy :=
  { defaultTax with
    rootNode := 1
    Nodes := fun x =>
      if x = 1 then some 1 else if x = 2 then some 1
      else if x = 3 then some 2 else if x = 4 then some 2 else none
    MergeNodes := fun x => if x = 9 then some 3 else none
    hasMergeNodes := true }

/-- Depth function witnessing well-formedness of `wfStore`. -/
def wfDepthFn : Nat → Nat :=
  fun x => if x = 1 then 0 else if x = 2 then 1 else 2

/-- Input lines whose records are `(1,1)` and `(2,9)`: the parent `9`
exceeds every child taxid. -/
def maxCxLines : List (List Char) := ["1\t.\t1".data, "2\t.\t9".data]

/-- The same two records with rank fields, for `NewTaxonomyWithRank`
with columns `(1, 3, 5)`. -/
def maxCxRankLines : List (List Char) :=
  ["1\t.\t1\t.\tno rank".data, "2\t.\t9\t.\tgenus".data]

/-- The taxid a walk iteration actually proceeds from: `c` itself when
it is a key of `Nodes`, its (single-hop) merge target when that target
is a key, `none` otherwise. `step S c` succeeds exactly on
`resolveK S c = some c'`, yielding `(c', parent of c')`. -/
def resolveK (S : Taxonomy) (c : Nat) : Option Nat :=
  match S.Nodes c with
  | some _ => some c
  | none =>
    if S.hasMergeNodes then
      match S.MergeNodes c with
      | some nt => if (S.Nodes nt).isSome then some nt else none
      | none => none
    else none

/-- Walk B's decision sequence over an already computed parent chain:
first parent equal to `a` wins, then first parent in `mA`; an exhausted
chain means the root's self-loop was reached. Specification device. -/
def walkBSpec (a : Nat) (mA : List Nat) : List Nat → WalkB
  | [] => .root
  | p :: rest => if p = a then .foundA else if p ∈ mA then .hit p else walkBSpec a mA rest

/-- C3: `lca(S, x, x) = x` for every `x` (present or absent from the
parent map: the equality fast path fires before any lookup), and
`lca(S, 0, x) = lca(S, x, 0) = 0` for every `x`. Holds for any fuel
because neither fast path enters a walk. -/
theorem lca_fast_paths (S : Taxonomy) (fuel x : Nat) :
    lcaCore S fuel x x = some x ∧ lcaCore S fuel 0 x = some 0 ∧ lcaCore S fuel x 0 = some 0 := by
  refine ⟨?_, ?_, ?_⟩ <;> by_cases hx : x = 0 <;> simp [lcaCore, hx]

/-- C2 (counterexample): the claim "`lca(S, a, b) = 0` for all `b ≠ 0`
whenever `a` is a key of neither map" fails at `b = a`: with `a = b = 5`
absent from both maps, the `a == b` fast path returns `5`, not `0`. -/
theorem lca_unresolvable_cx :
    defaultTax.Nodes 5 = none ∧ defaultTax.MergeNodes 5 = none ∧ (5 : Nat) ≠ 0 ∧
    lcaCore defaultTax 1 5 5 = some 5 ∧ lcaCore defaultTax 1 5 5 ≠ some 0 := by
  refine ⟨rfl, rfl, by decide, by decide, by decide⟩

/-- C2 (amended): if `a` is a key of neither `Nodes` nor `MergeNodes`,
then `lca(S, a, b) = 0` for every `b ≠ 0` with `b ≠ a` (the `a == b`
fast path returns `a` itself, bypassing the lookups). Any positive fuel
suffices: walk A fails on its first step. -/
theorem lca_unresolvable_zero (S : Taxonomy) (fuel a b : Nat)
    (hn : S.Nodes a = none) (hm : S.MergeNodes a = none)
    (hb : b ≠ 0) (hba : b ≠ a) (hf : 0 < fuel) :
    lcaCore S fuel a b = some 0 := by
  by_cases ha : a = 0
  · simp [lcaCore, ha]
  · obtain ⟨g, rfl⟩ : ∃ g, fuel = g + 1 := ⟨fuel - 1, by omega⟩
    have hab : a ≠ b := Ne.symm hba
    have hstep : step S a = none := by
      simp [step, hn, hm]
    simp [lcaCore, ha, hb, hab, walkA, hstep]

/-- C2 (witness for the amended theorem). -/
theorem lca_unresolvable_zero_witness :
    defaultTax.Nodes 7 = none ∧ defaultTax.MergeNodes 7 = none ∧ (3 : Nat) ≠ 0 ∧
    (3 : Nat) ≠ 7 ∧ 0 < 1 ∧ lcaCore defaultTax 1 7 3 = some 0 :=
  ⟨rfl, rfl, by decide, by decide, by decide,
    lca_unresolvable_zero defaultTax 1 7 3 rfl rfl (by decide) (by decide) (by decide)⟩

/-- C5: the claim says a line with fewer than `max(columns)` fields is
silently skipped, but the guard in `NewTaxonomy`'s `parseFunc` uses
`minInt`: on columns `(1, 3)` the two-field line `"5\t8"` passes the
guard (`2 ≥ min = 1`) and `items[2]` is indexed out of range — a Go
runtime panic, not a skip. -/
theorem nodes_short_line_panics :
    nodesParseLine 1 3 ("5\t8".data) = .panicked ∧
    (newTaxonomy ["5\t8".data] 1 3).isPanic = true ∧
    (splitTab (trimChars "5\t8".data)).length = 2 ∧
    minInt 1 [3] = 1 ∧
    rankParseLine 1 3 5 ("5\t.\t8".data) = .panicked := by
  refine ⟨by decide, by decide, by decide, by decide, by decide⟩

/-- Success characterization of `LoadMergedNodes`: the merge map is
rebuilt from scratch out of the parsed pairs and installed wholesale. -/
theorem loadMergedNodes_ok (t : Taxonomy) (oldColumn newColumn : Nat) (openOk : Bool)
    (lines : List (List Char))
    (h : (loadMergedNodes t oldColumn newColumn openOk lines).2 = none) :
    ∃ prs, mergedRecs oldColumn newColumn lines = .ok prs ∧
      (loadMergedNodes t oldColumn newColumn openOk lines).1 =
        { t with MergeNodes := mapOfPairs prs, hasMergeNodes := true } := by
  unfold loadMergedNodes at h ⊢
  split at h
  · simp at h
  · split at h
    · simp at h
    · split at h <;> simp_all

/-- Success characterization of `LoadDeletedNodes`. -/
theorem loadDeletedNodes_ok (t : Taxonomy) (column : Nat) (openOk : Bool)
    (lines : List (List Char))
    (h : (loadDeletedNodes t column openOk lines).2 = none) :
    ∃ ids, delRecs column lines = .ok ids ∧
      (loadDeletedNodes t column openOk lines).1 =
        { t with DelNodes := setOfIds ids, hasDelNodes := true } := by
  unfold loadDeletedNodes at h ⊢
  split at h
  · simp at h
  · split at h
    · simp at h
    · split at h <;> simp_all

/-- C9: `LoadMergedNodes` and `LoadDeletedNodes` are atomic — whenever
either returns an error (illegal column, open failure, or a parse error
on any line), the store is returned unchanged: `MergeNodes`/`DelNodes`
and the `has…` flags keep their previous values (the local map built so
far is discarded). -/
theorem loads_atomic (t : Taxonomy) (oldColumn newColumn column : Nat) (openOk openOk' : Bool)
    (lines lines' : List (List Char)) (e e' : TaxErr) :
    ((loadMergedNodes t oldColumn newColumn openOk lines).2 = some e →
      (loadMergedNodes t oldColumn newColumn openOk lines).1 = t) ∧
    ((loadDeletedNodes t column openOk' lines').2 = some e' →
      (loadDeletedNodes t column openOk' lines').1 = t) := by
  constructor
  · unfold loadMergedNodes
    split
    · simp
    · split
      · simp
      · split <;> simp
  · unfold loadDeletedNodes
    split
    · simp
    · split
      · simp
      · split <;> simp

/-- C9 (witness): an illegal column index leaves the store untouched. -/
theorem loads_atomic_witness :
    (loadMergedNodes defaultTax 0 3 true []).2 = some .illegalColumnIndex ∧
    (loadMergedNodes defaultTax 0 3 true []).1 = defaultTax ∧
    (loadDeletedNodes defaultTax 0 true []).2 = some .illegalColumnIndex ∧
    (loadDeletedNodes defaultTax 0 true []).1 = defaultTax :=
  ⟨rfl, (loads_atomic defaultTax 0 3 0 true true [] [] .illegalColumnIndex .illegalColumnIndex).1 rfl,
    rfl, (loads_atomic defaultTax 0 3 0 true true [] [] .illegalColumnIndex .illegalColumnIndex).2 rfl⟩

/-- C10: a successful `LoadMergedNodes` replaces the whole merge map:
after a second successful call the merge map is exactly the map built
from the second file’s pairs, independent of what the first call loaded;
likewise for `LoadDeletedNodes` and the delete set. -/
theorem loads_replace (t : Taxonomy) (oldColumn newColumn column : Nat)
    (l1 l2 m1 m2 : List (List Char))
    (_h1 : (loadMergedNodes t oldColumn newColumn true l1).2 = none)
    (h2 : (loadMergedNodes (loadMergedNodes t oldColumn newColumn true l1).1
      oldColumn newColumn true l2).2 = none)
    (_h3 : (loadDeletedNodes t column true m1).2 = none)
    (h4 : (loadDeletedNodes (loadDeletedNodes t column true m1).1 column true m2).2 = none) :
    (∃ prs, mergedRecs oldColumn newColumn l2 = .ok prs ∧
      (∀ x, ((loadMergedNodes (loadMergedNodes t oldColumn newColumn true l1).1
        oldColumn newColumn true l2).1).MergeNodes x = mapOfPairs prs x) ∧
      ((loadMergedNodes (loadMergedNodes t oldColumn newColumn true l1).1
        oldColumn newColumn true l2).1).hasMergeNodes = true) ∧
    (∃ ids, delRecs column m2 = .ok ids ∧
      (∀ x, ((loadDeletedNodes (loadDeletedNodes t column true m1).1 column true m2).1).DelNodes x
        = setOfIds ids x) ∧
      ((loadDeletedNodes (loadDeletedNodes t column true m1).1 column true m2).1).hasDelNodes
        = true) := by
  obtain ⟨prs, hprs, hre⟩ := loadMergedNodes_ok _ oldColumn newColumn true l2 h2
  obtain ⟨ids, hids, hrd⟩ := loadDeletedNodes_ok _ column true m2 h4
  rw [hre, hrd]
  exact ⟨⟨prs, hprs, fun x => rfl, rfl⟩, ⟨ids, hids, fun x => rfl, rfl⟩⟩

/-- C10 (witness): loading `{9 ↦ 5}` then `{8 ↦ 2}` leaves exactly
`{8 ↦ 2}`; loading `{42}` then `{7}` leaves exactly `{7}`. -/
theorem loads_replace_witness :
    (∃ prs, mergedRecs 1 3 [("8\t|\t2".data)] = .ok prs ∧
      (∀ x, ((loadMergedNodes (loadMergedNodes defaultTax 1 3 true [("9\t|\t5".data)]).1
        1 3 true [("8\t|\t2".data)]).1).MergeNodes x = mapOfPairs prs x) ∧
      ((loadMergedNodes (loadMergedNodes defaultTax 1 3 true [("9\t|\t5".data)]).1
        1 3 true [("8\t|\t2".data)]).1).hasMergeNodes = true) ∧
    (∃ ids, delRecs 1 [("7".data)] = .ok ids ∧
      (∀ x, ((loadDeletedNodes (loadDeletedNodes defaultTax 1 true [("42".data)]).1
        1 true [("7".data)]).1).DelNodes x = setOfIds ids x) ∧
      ((loadDeletedNodes (loadDeletedNodes defaultTax 1 true [("42".data)]).1
        1 true [("7".data)]).1).hasDelNodes = true) :=
  loads_replace defaultTax 1 3 1 [("9\t|\t5".data)] [("8\t|\t2".data)]
    [("42".data)] [("7".data)] (by decide) (by decide) (by decide) (by decide)

/-- The `maxTaxid` accumulator of the node loop folds `max` over the
child taxids only. -/
theorem buildNodesLoop_max (recs : List (Nat × Nat)) :
    ∀ (nodes : Nat → Option Nat) (root m : Nat),
      (buildNodesLoop recs nodes root m).2.2 = recs.foldl (fun acc r => max acc r.1) m := by
  induction recs with
  | nil => intro nodes root m; rfl
  | cons r rest ih =>
    intro nodes root m
    obtain ⟨c, p⟩ := r
    have : (if m < c then c else m) = max m c := by
      rcases Nat.lt_or_ge m c with h | h
      · simp [h, Nat.max_eq_right (Nat.le_of_lt h)]
      · simp [Nat.not_lt.mpr h, Nat.max_eq_left h]
    simp only [buildNodesLoop, ih, this, List.foldl_cons]

/-- C6 (counterexample): on records `(1,1), (2,9)` the parent `9` is the
largest taxid encountered, but `MaxTaxid()` is `2` — the loop compares
only the child column against the maximum. -/
theorem maxTaxid_cx :
    collectRecs (nodesParseLine 1 3) maxCxLines = .ok [(1, 1), (2, 9)] ∧
    maxTaxidOf (newTaxonomy maxCxLines 1 3) = some 2 ∧
    List.foldl (fun acc r => max acc (max r.1 r.2)) 0 [((1 : Nat), (1 : Nat)), (2, 9)] = 9 ∧
    (2 : Nat) ≠ 9 := by
  refine ⟨by decide, by decide, by decide, by decide⟩


/-- The rank strings of a record list, in file order. -/
def ranksOfRecs (recs : List (Nat × Nat × String)) : List String :=
  recs.map (fun r => r.2.2)

/-- The rank table the loop produces: `seen` extended by each not yet
seen rank, in order of first appearance. -/
def finRanks (seen : List String) : List (Nat × Nat × String) → List String
  | [] => seen
  | r :: rest => if r.2.2 ∈ seen then finRanks seen rest else finRanks (seen ++ [r.2.2]) rest

/-- Extract the store from a successful build (default store otherwise);
lets concrete instances name the built store without spelling it out. -/
def tOfR : Except TaxErr Taxonomy → Taxonomy
  | .ok t => t
  | .error _ => defaultTax

/-- Extract the store from a successful `BuildOut`. -/
def tOfB : BuildOut → Taxonomy
  | .ok t => t
  | _ => defaultTax

/-- Invariant of the rank loop state: the rank table has no duplicates
and at most 255 entries, the reverse lookup `r2r` is exactly membership
in the table and points at the right slot, and every stored rank id is
in range. -/
def RInv (st : RState) : Prop :=
  st.ranks.Nodup ∧
  st.ranks.length ≤ 255 ∧
  (∀ r, (st.r2r r).isSome = true ↔ r ∈ st.ranks) ∧
  (∀ r i, st.r2r r = some i → st.ranks.get? i = some r) ∧
  (∀ x i, st.t2r x = some i → i < st.ranks.length)

theorem finRanks_len_ge (recs : List (Nat × Nat × String)) :
    ∀ seen, seen.length ≤ (finRanks seen recs).length := by
  induction recs with
  | nil => intro seen; simp [finRanks]
  | cons r rest ih =>
    intro seen
    by_cases h : r.2.2 ∈ seen
    · simpa [finRanks, h] using ih seen
    · have := ih (seen ++ [r.2.2])
      simp only [List.length_append, List.length_cons, List.length_nil] at this
      simp only [finRanks, h, if_false]
      omega

theorem finRanks_mem (recs : List (Nat × Nat × String)) :
    ∀ seen x, x ∈ finRanks seen recs ↔ x ∈ seen ∨ x ∈ ranksOfRecs recs := by
  induction recs with
  | nil => intro seen x; simp [finRanks, ranksOfRecs]
  | cons r rest ih =>
    intro seen x
    by_cases h : r.2.2 ∈ seen
    · simp only [finRanks, h, if_true, ih, ranksOfRecs, List.map_cons, List.mem_cons]
      constructor
      · rintro (hs | hr)
        · exact Or.inl hs
        · exact Or.inr (Or.inr hr)
      · rintro (hs | rfl | hr)
        · exact Or.inl hs
        · exact Or.inl h
        · exact Or.inr hr
    · simp only [finRanks, h, if_false, ih, ranksOfRecs, List.map_cons, List.mem_cons,
        List.mem_append, List.mem_singleton]
      tauto

theorem finRanks_nodup (recs : List (Nat × Nat × String)) :
    ∀ seen, seen.Nodup → (finRanks seen recs).Nodup := by
  induction recs with
  | nil => intro seen h; simpa [finRanks] using h
  | cons r rest ih =>
    intro seen h
    by_cases hm : r.2.2 ∈ seen
    · simpa [finRanks, hm] using ih seen h
    · simp only [finRanks, hm, if_false]
      refine ih _ ?_
      rw [← List.concat_eq_append]
      exact List.Nodup.concat hm h

theorem rstep_known (st : RState) (r : Nat × Nat × String) (rid : Nat)
    (h : st.r2r r.2.2 = some rid) :
    rstep st r = .ok
      { st with
        nodes := upd st.nodes r.1 r.2.1
        root := if r.1 = r.2.1 then r.1 else st.root
        maxT := if st.maxT < r.1 then r.1 else st.maxT
        t2r := upd st.t2r r.1 (rid % 256) } := by
  simp [rstep, h]

theorem rstep_new_full (st : RState) (r : Nat × Nat × String)
    (h : st.r2r r.2.2 = none) (hf : 255 < st.ranks.length + 1) :
    rstep st r = .error .tooManyRanks := by
  simp only [rstep, h]
  rw [if_pos (by simpa using hf)]

theorem rstep_new (st : RState) (r : Nat × Nat × String)
    (h : st.r2r r.2.2 = none) (hf : ¬255 < st.ranks.length + 1) :
    rstep st r = .ok
      { st with
        nodes := upd st.nodes r.1 r.2.1
        root := if r.1 = r.2.1 then r.1 else st.root
        maxT := if st.maxT < r.1 then r.1 else st.maxT
        ranks := st.ranks ++ [r.2.2]
        r2r := fun s => if s = r.2.2 then some st.ranks.length else st.r2r s
        t2r := upd st.t2r r.1 (st.ranks.length % 256)
        rset := fun s => if s = r.2.2 then true else st.rset s } := by
  simp only [rstep, h]
  rw [if_neg (by simpa using hf)]
  simp

theorem buildRankLoop_spec (recs : List (Nat × Nat × String)) :
    ∀ st, RInv st →
      if (finRanks st.ranks recs).length ≤ 255 then
        ∃ st', buildRankLoop recs st = .ok st' ∧ st'.ranks = finRanks st.ranks recs ∧ RInv st'
      else buildRankLoop recs st = .error .tooManyRanks := by
  induction recs with
  | nil =>
    intro st hinv
    rw [if_pos (by simpa [finRanks] using hinv.2.1)]
    exact ⟨st, rfl, rfl, hinv⟩
  | cons r rest ih =>
    intro st hinv
    obtain ⟨hnd, hlen, hiff, hget, ht2r⟩ := hinv
    by_cases hm : r.2.2 ∈ st.ranks
    · obtain ⟨rid, hrid⟩ := Option.isSome_iff_exists.mp ((hiff _).mpr hm)
      obtain ⟨hridlt, -⟩ := List.get?_eq_some.mp (hget _ _ hrid)
      have hinv1 : RInv
          { st with
            nodes := upd st.nodes r.1 r.2.1
            root := if r.1 = r.2.1 then r.1 else st.root
            maxT := if st.maxT < r.1 then r.1 else st.maxT
            t2r := upd st.t2r r.1 (rid % 256) } := by
        refine ⟨hnd, hlen, hiff, hget, ?_⟩
        intro x i hx
        simp only [upd] at hx
        split at hx
        · injection hx with h
          show i < st.ranks.length
          omega
        · exact ht2r _ _ hx
      have hstep : buildRankLoop (r :: rest) st =
          buildRankLoop rest
            { st with
              nodes := upd st.nodes r.1 r.2.1
              root := if r.1 = r.2.1 then r.1 else st.root
              maxT := if st.maxT < r.1 then r.1 else st.maxT
              t2r := upd st.t2r r.1 (rid % 256) } := by
        simp [buildRankLoop, rstep_known st r rid hrid]
      rw [show finRanks st.ranks (r :: rest) = finRanks st.ranks rest from by simp [finRanks, hm],
        hstep]
      exact ih _ hinv1
    · have hnone : st.r2r r.2.2 = none :=
        Option.not_isSome_iff_eq_none.mp (fun hs => hm ((hiff _).mp hs))
      rw [show finRanks st.ranks (r :: rest) = finRanks (st.ranks ++ [r.2.2]) rest from by
        simp [finRanks, hm]]
      by_cases hfull : 255 < st.ranks.length + 1
      · have hge := finRanks_len_ge rest (st.ranks ++ [r.2.2])
        have hbig : ¬(finRanks (st.ranks ++ [r.2.2]) rest).length ≤ 255 := by
          simp only [List.length_append, List.length_cons, List.length_nil] at hge
          omega
        rw [if_neg hbig]
        simp [buildRankLoop, rstep_new_full st r hnone hfull]
      · have hinv2 : RInv
            { st with
              nodes := upd st.nodes r.1 r.2.1
              root := if r.1 = r.2.1 then r.1 else st.root
              maxT := if st.maxT < r.1 then r.1 else st.maxT
              ranks := st.ranks ++ [r.2.2]
              r2r := fun s => if s = r.2.2 then some st.ranks.length else st.r2r s
              t2r := upd st.t2r r.1 (st.ranks.length % 256)
              rset := fun s => if s = r.2.2 then true else st.rset s } := by
          refine ⟨?_, ?_, ?_, ?_, ?_⟩
          · show (st.ranks ++ [r.2.2]).Nodup
            rw [← List.concat_eq_append]
            exact List.Nodup.concat hm hnd
          · show (st.ranks ++ [r.2.2]).length ≤ 255
            simp only [List.length_append, List.length_cons, List.length_nil]
            omega
          · intro s
            show (if s = r.2.2 then some st.ranks.length else st.r2r s).isSome = true ↔
              s ∈ st.ranks ++ [r.2.2]
            by_cases hs : s = r.2.2 <;> simp [hs, hiff]
          · intro s i hsi
            simp only at hsi
            split at hsi
            · next hs =>
              injection hsi with h
              subst hs
              show (st.ranks ++ [r.2.2]).get? i = some r.2.2
              rw [← h]
              exact List.get?_concat_length _ _
            · show (st.ranks ++ [r.2.2]).get? i = some s
              rw [List.get?_append (List.get?_eq_some.mp (hget _ _ hsi)).1]
              exact hget _ _ hsi
          · intro x i hx
            simp only [upd] at hx
            show i < (st.ranks ++ [r.2.2]).length
            simp only [List.length_append, List.length_cons, List.length_nil]
            split at hx
            · injection hx with h
              omega
            · have := ht2r _ _ hx
              omega
        have hstep : buildRankLoop (r :: rest) st =
            buildRankLoop rest
              { st with
                nodes := upd st.nodes r.1 r.2.1
                root := if r.1 = r.2.1 then r.1 else st.root
                maxT := if st.maxT < r.1 then r.1 else st.maxT
                ranks := st.ranks ++ [r.2.2]
                r2r := fun s => if s = r.2.2 then some st.ranks.length else st.r2r s
                t2r := upd st.t2r r.1 (st.ranks.length % 256)
                rset := fun s => if s = r.2.2 then true else st.rset s } := by
          simp [buildRankLoop, rstep_new st r hnone hfull]
        rw [hstep]
        exact ih _ hinv2

theorem rinit_inv : RInv rinit := by
  refine ⟨List.nodup_nil, by simp [rinit], ?_, ?_, ?_⟩ <;> intros <;> simp_all [rinit]

theorem finRanks_length_eq_dedup (recs : List (Nat × Nat × String)) :
    (finRanks [] recs).length = (ranksOfRecs recs).dedup.length := by
  have h1 : (finRanks [] recs).Nodup := finRanks_nodup recs [] List.nodup_nil
  have h2 : (ranksOfRecs recs).dedup.Nodup := List.nodup_dedup _
  have hfin : (finRanks [] recs).toFinset = (ranksOfRecs recs).dedup.toFinset := by
    ext a
    simp only [List.mem_toFinset, List.mem_dedup]
    simpa using finRanks_mem recs [] a
  rw [← List.toFinset_card_of_nodup h1, ← List.toFinset_card_of_nodup h2, hfin]

/-- C7: building with ranks succeeds exactly when the input's distinct
rank strings number at most 255; with a 256th distinct rank the build
fails with `TooManyRanks`; and on success the rank table holds exactly
one entry per distinct rank string of the input. -/
theorem rank_bound_255 (recs : List (Nat × Nat × String)) :
    ((ranksOfRecs recs).dedup.length ≤ 255 →
      ∃ t, buildWithRank recs = .ok t ∧ t.ranks.Nodup ∧
        (∀ r, r ∈ t.ranks ↔ r ∈ ranksOfRecs recs) ∧
        t.ranks.length = (ranksOfRecs recs).dedup.length) ∧
    (255 < (ranksOfRecs recs).dedup.length → buildWithRank recs = .error .tooManyRanks) := by
  have hspec := buildRankLoop_spec recs rinit rinit_inv
  have hlen := finRanks_length_eq_dedup recs
  have hrr : rinit.ranks = [] := rfl
  rw [hrr] at hspec
  constructor
  · intro hb
    rw [if_pos (by omega)] at hspec
    obtain ⟨st', hok, hranks, hinv'⟩ := hspec
    refine ⟨_, by rw [buildWithRank, hok]; rfl, ?_, ?_, ?_⟩
    · show st'.ranks.Nodup
      rw [hranks]
      exact finRanks_nodup recs [] List.nodup_nil
    · intro r
      show r ∈ st'.ranks ↔ r ∈ ranksOfRecs recs
      rw [hranks]
      simpa using finRanks_mem recs [] r
    · show st'.ranks.length = (ranksOfRecs recs).dedup.length
      rw [hranks, hlen]
  · intro hb
    rw [if_neg (by omega)] at hspec
    rw [buildWithRank, hspec]
    rfl

/-- C7 (witness): two distinct ranks over three records. -/
theorem rank_bound_255_witness :
    (ranksOfRecs [((1 : Nat), (1 : Nat), "no rank"), (2, 1, "genus"), (3, 1, "genus")]).dedup.length ≤ 255 ∧
    ∃ t, buildWithRank [((1 : Nat), (1 : Nat), "no rank"), (2, 1, "genus"), (3, 1, "genus")] = .ok t ∧
      t.ranks.Nodup ∧
      (∀ r, r ∈ t.ranks ↔
        r ∈ ranksOfRecs [((1 : Nat), (1 : Nat), "no rank"), (2, 1, "genus"), (3, 1, "genus")]) ∧
      t.ranks.length =
        (ranksOfRecs [((1 : Nat), (1 : Nat), "no rank"), (2, 1, "genus"), (3, 1, "genus")]).dedup.length :=
  ⟨by decide,
    (rank_bound_255 [((1 : Nat), (1 : Nat), "no rank"), (2, 1, "genus"), (3, 1, "genus")]).1 (by decide)⟩

/-- C8: `Rank(t)` panics exactly on stores built without ranks: every
query on a `NewTaxonomy` store panics with `RankNotLoaded`, while on any
store built by the rank-aware builder no query panics — it returns the
taxon's rank-table entry when the taxid is known and `""` otherwise. -/
theorem rank_panic_iff_no_ranks (lines : List (List Char)) (childColumn parentColumn : Nat)
    (recs : List (Nat × Nat × String)) (t u : Taxonomy) (x : Nat) :
    (newTaxonomy lines childColumn parentColumn = .ok u → rankOf u x = .panicked) ∧
    (buildWithRank recs = .ok t →
      rankOf t x ≠ .panicked ∧
      (t.taxid2rankid x = none → rankOf t x = .strv "") ∧
      (∀ i, t.taxid2rankid x = some i →
        ∃ s, t.ranks.get? i = some s ∧ rankOf t x = .strv s)) := by
  constructor
  · intro h
    unfold newTaxonomy at h
    split at h
    · cases h
    · split at h
      · cases h
      · cases h
      · injection h with h
        subst h
        simp [rankOf, defaultTax]
  · intro h
    unfold buildWithRank at h
    cases hb : buildRankLoop recs rinit with
    | error e => rw [hb] at h; cases h
    | ok st =>
      rw [hb] at h
      simp only [Except.map] at h
      injection h with h
      have hstinv : RInv st := by
        have hspec := buildRankLoop_spec recs rinit rinit_inv
        by_cases hc : (finRanks rinit.ranks recs).length ≤ 255
        · rw [if_pos hc] at hspec
          obtain ⟨st', hok, -, hinv'⟩ := hspec
          rw [hb] at hok
          injection hok with hok
          exact hok ▸ hinv'
        · rw [if_neg hc] at hspec
          rw [hb] at hspec
          cases hspec
      subst h
      obtain ⟨-, -, -, -, ht2r⟩ := hstinv
      refine ⟨?_, ?_, ?_⟩
      · cases hx : st.t2r x with
        | none => simp [rankOf, hx]
        | some i =>
          have hi := ht2r _ _ hx
          obtain ⟨s, hs⟩ : ∃ s, st.ranks.get? i = some s := by
            rw [List.get?_eq_get hi]
            exact ⟨_, rfl⟩
          rw [List.get?_eq_getElem?] at hs
          simp [rankOf, hx, hs]
      · intro hn
        simp only at hn
        simp [rankOf, hn]
      · intro i hi2
        simp only at hi2
        have hi := ht2r _ _ hi2
        obtain ⟨s, hs⟩ : ∃ s, st.ranks.get? i = some s := by
          rw [List.get?_eq_get hi]
          exact ⟨_, rfl⟩
        refine ⟨s, hs, ?_⟩
        rw [List.get?_eq_getElem?] at hs
        simp [rankOf, hi2, hs]

/-- C8 (witness): one rank-aware store and one rank-free store. -/
theorem rank_panic_iff_no_ranks_witness :
    newTaxonomy ["1\t.\t1".data] 1 3 = .ok (tOfB (newTaxonomy ["1\t.\t1".data] 1 3)) ∧
    rankOf (tOfB (newTaxonomy ["1\t.\t1".data] 1 3)) 1 = .panicked ∧
    buildWithRank [((1 : Nat), (1 : Nat), "no rank")] =
      .ok (tOfR (buildWithRank [((1 : Nat), (1 : Nat), "no rank")])) ∧
    rankOf (tOfR (buildWithRank [((1 : Nat), (1 : Nat), "no rank")])) 1 ≠ .panicked :=
  ⟨rfl,
    (rank_panic_iff_no_ranks ["1\t.\t1".data] 1 3 [((1 : Nat), (1 : Nat), "no rank")]
      (tOfR (buildWithRank [((1 : Nat), (1 : Nat), "no rank")]))
      (tOfB (newTaxonomy ["1\t.\t1".data] 1 3)) 1).1 rfl,
    rfl,
    ((rank_panic_iff_no_ranks ["1\t.\t1".data] 1 3 [((1 : Nat), (1 : Nat), "no rank")]
      (tOfR (buildWithRank [((1 : Nat), (1 : Nat), "no rank")]))
      (tOfB (newTaxonomy ["1\t.\t1".data] 1 3)) 1).2 rfl).1⟩

theorem step_of_resolveK_none (S : Taxonomy) (c : Nat) (h : resolveK S c = none) :
    step S c = none := by
  cases hn : S.Nodes c with
  | some p => simp [resolveK, hn] at h
  | none =>
    cases hm : S.hasMergeNodes with
    | false => simp [step, hn, hm]
    | true =>
      cases hmn : S.MergeNodes c with
      | none => simp [step, hn, hm, hmn]
      | some nt =>
        cases hnt : S.Nodes nt with
        | none => simp [step, hn, hm, hmn, hnt]
        | some p => simp [resolveK, hn, hm, hmn, hnt] at h

theorem step_of_resolveK_some (S : Taxonomy) (c c' : Nat) (h : resolveK S c = some c') :
    ∃ p, S.Nodes c' = some p ∧ step S c = some (c', p) := by
  cases hn : S.Nodes c with
  | some p =>
    simp only [resolveK, hn] at h
    injection h with h
    subst h
    exact ⟨p, hn, by simp [step, hn]⟩
  | none =>
    cases hm : S.hasMergeNodes with
    | false => simp [resolveK, hn, hm] at h
    | true =>
      cases hmn : S.MergeNodes c with
      | none => simp [resolveK, hn, hm, hmn] at h
      | some nt =>
        cases hnt : S.Nodes nt with
        | none => simp [resolveK, hn, hm, hmn, hnt] at h
        | some p =>
          simp only [resolveK, hn, hm, hmn, hnt, Option.isSome_some, if_true] at h
          injection h with h
          subst h
          exact ⟨p, hnt, by simp [step, hn, hm, hmn, hnt]⟩

theorem resolveK_of_key (S : Taxonomy) (c : Nat) (h : (S.Nodes c).isSome = true) :
    resolveK S c = some c := by
  obtain ⟨p, hp⟩ := Option.isSome_iff_exists.mp h
  simp [resolveK, hp]

theorem resolveK_isKey (S : Taxonomy) (c c' : Nat) (h : resolveK S c = some c') :
    (S.Nodes c').isSome = true := by
  obtain ⟨p, hp, -⟩ := step_of_resolveK_some S c c' h
  simp [hp]

theorem resolveK_none_not_key (S : Taxonomy) (c : Nat) (h : resolveK S c = none) :
    S.Nodes c = none := by
  cases hn : S.Nodes c with
  | none => rfl
  | some p => simp [resolveK, hn] at h

theorem walkA_congr (S : Taxonomy) (b f c c' m : _) (h : resolveK S c = some c') :
    walkA S b (f + 1) c m = walkA S b (f + 1) c' m := by
  obtain ⟨p, hp, hs⟩ := step_of_resolveK_some S c c' h
  have hs' : step S c' = some (c', p) := by simp [step, hp]
  simp [walkA, hs, hs']

theorem walkB_congr (S : Taxonomy) (a mA f c c' : _) (h : resolveK S c = some c') :
    walkB S a mA (f + 1) c = walkB S a mA (f + 1) c' := by
  obtain ⟨p, hp, hs⟩ := step_of_resolveK_some S c c' h
  have hs' : step S c' = some (c', p) := by simp [step, hp]
  simp [walkB, hs, hs']

theorem walkA_failed (S : Taxonomy) (b f c m : _) (h : resolveK S c = none) :
    walkA S b (f + 1) c m = .failed := by
  simp [walkA, step_of_resolveK_none S c h]

theorem walkB_failed (S : Taxonomy) (a mA f c : _) (h : resolveK S c = none) :
    walkB S a mA (f + 1) c = .failed := by
  simp [walkB, step_of_resolveK_none S c h]

theorem parentsL_cons (S : Taxonomy) (f c p : Nat) (P' : List Nat)
    (h : parentsL S (f + 1) c = some (p :: P')) :
    S.Nodes c = some p ∧ p ≠ c ∧ parentsL S f p = some P' := by
  unfold parentsL at h
  split at h
  · cases h
  · next q hn =>
    split at h
    · cases h
    · next hq =>
      cases hp : parentsL S f q with
      | none => rw [hp] at h; cases h
      | some Q =>
        rw [hp] at h
        simp at h
        obtain ⟨rfl, rfl⟩ := h
        exact ⟨hn, hq, hp⟩

theorem parentsL_nil (S : Taxonomy) (f c : Nat) (h : parentsL S (f + 1) c = some []) :
    S.Nodes c = some c := by
  unfold parentsL at h
  split at h
  · cases h
  · next q hn =>
    split at h
    · next hq => exact hq ▸ hn
    · next hq =>
      cases hp : parentsL S f q with
      | none => rw [hp] at h; cases h
      | some Q => rw [hp] at h; simp at h

theorem parentsL_mono (S : Taxonomy) :
    ∀ f f' c P, parentsL S f c = some P → f ≤ f' → parentsL S f' c = some P := by
  intro f
  induction f with
  | zero => intro f' c P h; cases h
  | succ g ih =>
    intro f' c P h hle
    obtain ⟨g', rfl⟩ : ∃ g', f' = g' + 1 := ⟨f' - 1, by omega⟩
    cases P with
    | nil =>
      have := parentsL_nil S g c h
      simp [parentsL, this]
    | cons p P' =>
      obtain ⟨hn, hq, hp⟩ := parentsL_cons S g c p P' h
      have := ih g' p P' hp (by omega)
      simp [parentsL, hn, hq, this]

theorem parentsL_unique (S : Taxonomy) (f f' c : Nat) (P P' : List Nat)
    (h : parentsL S f c = some P) (h' : parentsL S f' c = some P') : P = P' := by
  rcases Nat.le_total f f' with hle | hle
  · have := parentsL_mono S f f' c P h hle
    rw [this] at h'
    injection h'
  · have := parentsL_mono S f' f c P' h' hle
    rw [this] at h
    injection h with h2
    exact h2.symm

theorem parentsL_suffix (S : Taxonomy) :
    ∀ (X : List Nat) f c z (Y : List Nat), parentsL S f c = some (X ++ z :: Y) →
      ∃ g, g ≤ f ∧ parentsL S g z = some Y := by
  intro X
  induction X with
  | nil =>
    intro f c z Y h
    obtain ⟨g, rfl⟩ : ∃ g, f = g + 1 := by
      cases f with
      | zero => cases h
      | succ g => exact ⟨g, rfl⟩
    obtain ⟨-, -, hp⟩ := parentsL_cons S g c z Y h
    exact ⟨g, by omega, hp⟩
  | cons x X' ih =>
    intro f c z Y h
    obtain ⟨g, rfl⟩ : ∃ g, f = g + 1 := by
      cases f with
      | zero => cases h
      | succ g => exact ⟨g, rfl⟩
    obtain ⟨-, -, hp⟩ := parentsL_cons S g c x (X' ++ z :: Y) h
    obtain ⟨g', hg', hz⟩ := ih g x z Y hp
    exact ⟨g', by omega, hz⟩

theorem walkA_spec (S : Taxonomy) (b : Nat) :
    ∀ f c P m, parentsL S f c = some P →
      (b ∈ P → walkA S b f c m = .foundB) ∧
      (b ∉ P → walkA S b f c m = .done (P.getLastD c :: P.reverse ++ m)) := by
  intro f
  induction f with
  | zero => intro c P m h; cases h
  | succ g ih =>
    intro c P m h
    cases P with
    | nil =>
      have hn := parentsL_nil S g c h
      have hs : step S c = some (c, c) := by simp [step, hn]
      constructor
      · intro hb; cases hb
      · intro _
        simp [walkA, hs]
    | cons p P' =>
      obtain ⟨hn, hq, hp⟩ := parentsL_cons S g c p P' h
      have hs : step S c = some (c, p) := by simp [step, hn]
      have ihp := ih p P' (p :: m) hp
      constructor
      · intro hb
        rcases List.mem_cons.mp hb with rfl | hb'
        · simp [walkA, hs, hq]
        · by_cases hpb : p = b
          · subst hpb
            simp [walkA, hs, hq]
          · simp only [walkA, hs, if_neg hq, if_neg hpb]
            exact ihp.1 hb'
      · intro hb
        have hpb : ¬p = b := fun hh => hb (hh ▸ List.mem_cons_self p P')
        simp only [walkA, hs, if_neg hq, if_neg hpb]
        have hbP' : b ∉ P' := fun hh => hb (List.mem_cons_of_mem p hh)
        rw [ihp.2 hbP', List.getLastD_cons, List.reverse_cons]
        simp

theorem walkB_spec (S : Taxonomy) (a : Nat) (mA : List Nat) :
    ∀ f c P, parentsL S f c = some P → walkB S a mA f c = walkBSpec a mA P := by
  intro f
  induction f with
  | zero => intro c P h; cases h
  | succ g ih =>
    intro c P h
    cases P with
    | nil =>
      have hn := parentsL_nil S g c h
      have hs : step S c = some (c, c) := by simp [step, hn]
      simp [walkB, hs, walkBSpec]
    | cons p P' =>
      obtain ⟨hn, hq, hp⟩ := parentsL_cons S g c p P' h
      have hs : step S c = some (c, p) := by simp [step, hn]
      by_cases hpa : p = a
      · subst hpa
        simp [walkB, hs, hq, walkBSpec]
      · by_cases hpm : p ∈ mA
        · simp [walkB, hs, hq, hpa, hpm, walkBSpec]
        · simp only [walkB, hs, if_neg hq, if_neg hpa, if_neg hpm, walkBSpec]
          exact ih p P' hp

theorem walkBSpec_val (S : Taxonomy) (a : Nat) (mA : List Nat) :
    ∀ P : List Nat, wbVal S a (walkBSpec a mA P) =
      some ((P.find? (fun x => decide (x = a ∨ x ∈ mA))).getD S.rootNode) := by
  intro P
  induction P with
  | nil => simp [walkBSpec, wbVal]
  | cons p rest ih =>
    by_cases hpa : p = a
    · subst hpa
      simp [walkBSpec, wbVal, List.find?_cons_of_pos]
    · by_cases hpm : p ∈ mA
      · simp [walkBSpec, hpa, hpm, wbVal, List.find?_cons_of_pos]
      · have hf2 : (decide (p = a ∨ p ∈ mA)) = false := by
          simp [hpa, hpm]
        simp only [walkBSpec, if_neg hpa, if_neg hpm, List.find?, hf2]
        exact ih

theorem wf_selfloop (S : Taxonomy) (d : Nat → Nat) (hwf : WfT S d) (c : Nat)
    (h : S.Nodes c = some c) : c = S.rootNode := by
  by_contra hne
  have := (hwf.2 c c h hne).2
  omega

theorem parentsL_wf (S : Taxonomy) (d : Nat → Nat) (hwf : WfT S d) :
    ∀ f c, (S.Nodes c).isSome = true → d c < f →
      ∃ P, parentsL S f c = some P ∧
        (∀ x ∈ P, (S.Nodes x).isSome = true) ∧
        P.getLastD c = S.rootNode ∧
        P.Nodup ∧ c ∉ P ∧
        (∀ x ∈ P, x = S.rootNode ∨ d x < d c) := by
  intro f
  induction f with
  | zero => intro c hc hd; omega
  | succ g ih =>
    intro c hc hd
    obtain ⟨p, hp⟩ := Option.isSome_iff_exists.mp hc
    by_cases hpc : p = c
    · subst hpc
      have hroot := wf_selfloop S d hwf p hp
      refine ⟨[], by simp [parentsL, hp], by simp, ?_, by simp, by simp, by simp⟩
      simpa using hroot
    · have hcr : c ≠ S.rootNode := by
        intro hcr
        rw [hcr] at hp
        rw [hwf.1] at hp
        injection hp with hp2
        exact hpc (by omega)
      obtain ⟨hpk, hdp⟩ := hwf.2 c p hp hcr
      obtain ⟨P', hP', hkeys, hlast, hnd, hnm, hdepth⟩ := ih p hpk (by omega)
      refine ⟨p :: P', ?_, ?_, ?_, ?_, ?_, ?_⟩
      · simp [parentsL, hp, hpc, hP']
      · intro x hx
        rcases List.mem_cons.mp hx with rfl | hx'
        · exact hpk
        · exact hkeys x hx'
      · rw [List.getLastD_cons]
        exact hlast
      · exact List.nodup_cons.mpr ⟨hnm, hnd⟩
      · intro hcmem
        rcases List.mem_cons.mp hcmem with rfl | hc'
        · exact hpc rfl
        · rcases hdepth c hc' with rfl | hdc
          · exact hcr rfl
          · omega
      · intro x hx
        rcases List.mem_cons.mp hx with rfl | hx'
        · right; omega
        · rcases hdepth x hx' with rfl | hdx
          · left; rfl
          · right; omega

theorem find?_first {α : Type} (p : α → Bool) (z : α) (Y : List α) :
    ∀ X : List α, (∀ x ∈ X, p x = false) → p z = true →
      (X ++ z :: Y).find? p = some z := by
  intro X
  induction X with
  | nil =>
    intro _ hz
    simp only [List.nil_append, List.find?, hz]
  | cons x X' ih =>
    intro hX hz
    have hx : p x = false := hX x (List.mem_cons_self x X')
    simp only [List.cons_append, List.find?, hx]
    exact ih (fun y hy => hX y (List.mem_cons_of_mem x hy)) hz

theorem find?_decomp {α : Type} (p : α → Bool) :
    ∀ (L : List α) (z : α), L.find? p = some z →
      ∃ X Y, L = X ++ z :: Y ∧ (∀ x ∈ X, p x = false) ∧ p z = true := by
  intro L
  induction L with
  | nil => intro z h; cases h
  | cons x L' ih =>
    intro z h
    cases hx : p x with
    | true =>
      simp only [List.find?, hx] at h
      injection h with h
      subst h
      exact ⟨[], L', rfl, by simp, hx⟩
    | false =>
      simp only [List.find?, hx] at h
      obtain ⟨X, Y, rfl, hX, hz⟩ := ih z h
      refine ⟨x :: X, Y, rfl, ?_, hz⟩
      intro y hy
      rcases List.mem_cons.mp hy with rfl | hy'
      · exact hx
      · exact hX y hy'

theorem find?_congr {α : Type} (p q : α → Bool) :
    ∀ L : List α, (∀ x ∈ L, p x = q x) → L.find? p = L.find? q := by
  intro L
  induction L with
  | nil => intro _; rfl
  | cons x L' ih =>
    intro h
    have hx := h x (List.mem_cons_self x L')
    simp only [List.find?, hx]
    cases hq : q x with
    | true => rfl
    | false => exact ih (fun y hy => h y (List.mem_cons_of_mem x hy))

theorem pack_inj (a b c e : Nat) (ha : a < 2 ^ 32) (hb : b < 2 ^ 32) (hc : c < 2 ^ 32)
    (he : e < 2 ^ 32) (h : pack a b = pack c e) : (c = a ∧ e = b) ∨ (c = b ∧ e = a) := by
  unfold pack at h
  split at h <;> split at h <;> omega

theorem getLastD_mem_or {α : Type} : ∀ (Y : List α) (c : α), Y.getLastD c = c ∨ Y.getLastD c ∈ Y := by
  intro Y
  induction Y with
  | nil => intro c; left; rfl
  | cons y Y' ih =>
    intro c
    rw [List.getLastD_cons]
    rcases ih y with h | h
    · right; rw [h]; exact List.mem_cons_self y Y'
    · right; exact List.mem_cons_of_mem y h

theorem lca_rev_hit (S : Taxonomy) (d : Nat → Nat) (F : Nat) (hwf : WfT S d)
    (hball : ∀ x, (S.Nodes x).isSome = true → d x < F)
    (a b a' : Nat) (ha0 : a ≠ 0) (hb0 : b ≠ 0) (hab : a ≠ b)
    (hra : resolveK S a = some a') (Pa : List Nat) (hPa : parentsL S F a' = some Pa)
    (hbPa : b ∈ Pa) : lcaCore S F b a = some b := by
  have haK : (S.Nodes a').isSome = true := resolveK_isKey S a a' hra
  obtain ⟨Pa2, hPa2, hkeys, hlast, hnd, hnm, hdepth⟩ :=
    parentsL_wf S d hwf F a' haK (hball a' haK)
  obtain rfl : Pa2 = Pa := parentsL_unique S F F a' Pa2 Pa hPa2 hPa
  have hbK : (S.Nodes b).isSome = true := hkeys b hbPa
  obtain ⟨X, Y, hXY⟩ := List.append_of_mem hbPa
  subst hXY
  obtain ⟨hndX, hndbY, hdisj⟩ := List.nodup_append.mp hnd
  have hbX : b ∉ X := fun hx => hdisj hx (List.mem_cons_self b Y)
  have hbY : b ∉ Y := (List.nodup_cons.mp hndbY).1
  obtain ⟨g, hg, hYg⟩ := parentsL_suffix S X F a' b Y hPa
  have hYF : parentsL S F b = some Y := parentsL_mono S g F b Y hYg hg
  have haPa : a ∉ X ++ b :: Y := by
    intro ha
    have := resolveK_of_key S a (hkeys a ha)
    rw [hra] at this
    injection this with this
    exact hnm (this ▸ ha)
  have haY : a ∉ Y := fun hy => haPa (List.mem_append_right X (List.mem_cons_of_mem b hy))
  obtain ⟨G, rfl⟩ : ∃ G, F = G + 1 := ⟨F - 1, by have := hball a' haK; omega⟩
  have hwA := (walkA_spec S a (G + 1) b Y [] hYF).2 haY
  have hmAb : ∀ x, x ∈ Y.getLastD b :: Y.reverse ++ [] ↔ x = Y.getLastD b ∨ x ∈ Y := by
    intro x
    simp [List.mem_reverse]
  have hfind : (X ++ b :: Y).find? (fun x => decide (x = b ∨ x ∈ Y.getLastD b :: Y.reverse ++ [])) =
      some b := by
    apply find?_first
    · intro x hx
      have hxb : x ≠ b := fun hh => hbX (hh ▸ hx)
      have hxm : x ∉ Y.getLastD b :: Y.reverse ++ [] := by
        rw [hmAb x]
        rintro (hr | hy)
        · rcases getLastD_mem_or Y b with hc | hc
          · exact hxb (hr.trans hc)
          · exact hdisj hx (List.mem_cons_of_mem b (hr ▸ hc))
        · exact hdisj hx (List.mem_cons_of_mem b hy)
      rw [decide_eq_false_iff_not]
      rintro (hh | hmem)
      · exact hxb hh
      · exact hxm hmem
    · simp
  have hwB : walkB S b (Y.getLastD b :: Y.reverse ++ []) (G + 1) a =
      walkBSpec b (Y.getLastD b :: Y.reverse ++ []) (X ++ b :: Y) := by
    rw [walkB_congr S b (Y.getLastD b :: Y.reverse ++ []) G a a' hra]
    exact walkB_spec S b (Y.getLastD b :: Y.reverse ++ []) (G + 1) a' (X ++ b :: Y) hPa
  have hba : ¬b = a := fun hh => hab hh.symm
  simp only [lcaCore, hb0, ha0, or_self, if_false, if_neg hba, hwA,
    if_neg (fun hh : b = 0 ∨ a = 0 => by rcases hh with hh | hh; exact hb0 hh; exact ha0 hh)]
  rw [hwB, walkBSpec_val]
  rw [hfind]
  rfl

theorem find?_isSome_of_mem {α : Type} (p : α → Bool) :
    ∀ (L : List α) (x : α), x ∈ L → p x = true → ∃ z, L.find? p = some z := by
  intro L
  induction L with
  | nil => intro x hx; cases hx
  | cons y L' ih =>
    intro x hx hpx
    cases hy : p y with
    | true => exact ⟨y, by simp [List.find?, hy]⟩
    | false =>
      rcases List.mem_cons.mp hx with rfl | hx'
      · rw [hpx] at hy; cases hy
      · obtain ⟨z, hz⟩ := ih x hx' hpx
        exact ⟨z, by simp [List.find?, hy, hz]⟩

theorem lcaCore_failA (S : Taxonomy) (G a b : Nat) (ha0 : a ≠ 0) (hb0 : b ≠ 0) (hab : a ≠ b)
    (hra : resolveK S a = none) : lcaCore S (G + 1) a b = some 0 := by
  have h00 : ¬(a = 0 ∨ b = 0) := fun h => h.elim ha0 hb0
  simp only [lcaCore, if_neg h00, if_neg hab]
  rw [walkA_failed S b G a [] hra]

theorem lcaCore_failB (S : Taxonomy) (G a b a' : Nat) (Pa : List Nat)
    (ha0 : a ≠ 0) (hb0 : b ≠ 0) (hab : a ≠ b)
    (hra : resolveK S a = some a') (hrb : resolveK S b = none)
    (hPa : parentsL S (G + 1) a' = some Pa) (hbPa : b ∉ Pa) :
    lcaCore S (G + 1) a b = some 0 := by
  have h00 : ¬(a = 0 ∨ b = 0) := fun h => h.elim ha0 hb0
  simp only [lcaCore, if_neg h00, if_neg hab]
  rw [walkA_congr S b G a a' [] hra, (walkA_spec S b (G + 1) a' Pa [] hPa).2 hbPa]
  show wbVal S a (walkB S a (Pa.getLastD a' :: Pa.reverse ++ []) (G + 1) b) = some 0
  rw [walkB_failed S a _ G b hrb]
  rfl

theorem lcaCore_scan (S : Taxonomy) (G a b a' b' : Nat) (Pa Pb : List Nat)
    (ha0 : a ≠ 0) (hb0 : b ≠ 0) (hab : a ≠ b)
    (hra : resolveK S a = some a') (hrb : resolveK S b = some b')
    (hPa : parentsL S (G + 1) a' = some Pa) (hPb : parentsL S (G + 1) b' = some Pb)
    (hbPa : b ∉ Pa) :
    lcaCore S (G + 1) a b =
      some ((Pb.find?
        (fun x => decide (x = a ∨ x ∈ Pa.getLastD a' :: Pa.reverse ++ []))).getD S.rootNode) := by
  have h00 : ¬(a = 0 ∨ b = 0) := fun h => h.elim ha0 hb0
  simp only [lcaCore, if_neg h00, if_neg hab]
  rw [walkA_congr S b G a a' [] hra, (walkA_spec S b (G + 1) a' Pa [] hPa).2 hbPa]
  show wbVal S a (walkB S a (Pa.getLastD a' :: Pa.reverse ++ []) (G + 1) b) =
    some ((Pb.find?
      (fun x => decide (x = a ∨ x ∈ Pa.getLastD a' :: Pa.reverse ++ []))).getD S.rootNode)
  rw [walkB_congr S a _ G b b' hrb, walkB_spec S a _ (G + 1) b' Pb hPb, walkBSpec_val]

theorem getLastD_mem_cons {α : Type} (p : α) (Q : List α) (c : α) :
    (p :: Q).getLastD c ∈ p :: Q := by
  rw [List.getLastD_cons]
  rcases getLastD_mem_or Q p with h | h
  · rw [h]; exact List.mem_cons_self p Q
  · exact List.mem_cons_of_mem p h

theorem lcaCore_found (S : Taxonomy) (G a b a' : Nat) (Pa : List Nat)
    (ha0 : a ≠ 0) (hb0 : b ≠ 0) (hab : a ≠ b)
    (hra : resolveK S a = some a') (hPa : parentsL S (G + 1) a' = some Pa)
    (hbPa : b ∈ Pa) : lcaCore S (G + 1) a b = some b := by
  have h00 : ¬(a = 0 ∨ b = 0) := fun h => h.elim ha0 hb0
  simp only [lcaCore, if_neg h00, if_neg hab]
  rw [walkA_congr S b G a a' [] hra, (walkA_spec S b (G + 1) a' Pa [] hPa).1 hbPa]

theorem lca_symm_aux (S : Taxonomy) (d : Nat → Nat) (F : Nat) (hwf : WfT S d)
    (hball : ∀ x, (S.Nodes x).isSome = true → d x < F) (hF : 0 < F) (a b : Nat) :
    lcaCore S F a b = lcaCore S F b a := by
  by_cases ha0 : a = 0
  · simp [lcaCore, ha0]
  by_cases hb0 : b = 0
  · simp [lcaCore, hb0]
  by_cases hab : a = b
  · subst hab; rfl
  obtain ⟨G, rfl⟩ : ∃ G, F = G + 1 := ⟨F - 1, by omega⟩
  have hba : b ≠ a := fun h => hab h.symm
  rcases hra : resolveK S a with _ | a'
  · rcases hrb : resolveK S b with _ | b'
    · rw [lcaCore_failA S G a b ha0 hb0 hab hra, lcaCore_failA S G b a hb0 ha0 hba hrb]
    · rw [lcaCore_failA S G a b ha0 hb0 hab hra]
      have hbK := resolveK_isKey S b b' hrb
      obtain ⟨Pb, hPb, hkeysB, -, -, -, -⟩ := parentsL_wf S d hwf (G + 1) b' hbK (hball b' hbK)
      have haPb : a ∉ Pb := by
        intro hm
        have hh := resolveK_of_key S a (hkeysB a hm)
        rw [hra] at hh
        cases hh
      rw [lcaCore_failB S G b a b' Pb hb0 ha0 hba hrb hra hPb haPb]
  · rcases hrb : resolveK S b with _ | b'
    · have haK := resolveK_isKey S a a' hra
      obtain ⟨Pa, hPa, hkeysA, -, -, -, -⟩ := parentsL_wf S d hwf (G + 1) a' haK (hball a' haK)
      have hbPa : b ∉ Pa := by
        intro hm
        have hh := resolveK_of_key S b (hkeysA b hm)
        rw [hrb] at hh
        cases hh
      rw [lcaCore_failB S G a b a' Pa ha0 hb0 hab hra hrb hPa hbPa,
        lcaCore_failA S G b a hb0 ha0 hba hrb]
    · have haK := resolveK_isKey S a a' hra
      have hbK := resolveK_isKey S b b' hrb
      obtain ⟨Pa, hPa, hkeysA, hlastA, hndA, hnmA, -⟩ :=
        parentsL_wf S d hwf (G + 1) a' haK (hball a' haK)
      obtain ⟨Pb, hPb, hkeysB, hlastB, hndB, hnmB, -⟩ :=
        parentsL_wf S d hwf (G + 1) b' hbK (hball b' hbK)
      by_cases hbPa : b ∈ Pa
      · rw [lcaCore_found S G a b a' Pa ha0 hb0 hab hra hPa hbPa,
          lca_rev_hit S d (G + 1) hwf hball a b a' ha0 hb0 hab hra Pa hPa hbPa]
      · by_cases haPb : a ∈ Pb
        · rw [lcaCore_found S G b a b' Pb hb0 ha0 hba hrb hPb haPb,
            lca_rev_hit S d (G + 1) hwf hball b a b' hb0 ha0 hba hrb Pb hPb haPb]
        · rw [lcaCore_scan S G a b a' b' Pa Pb ha0 hb0 hab hra hrb hPa hPb hbPa,
            lcaCore_scan S G b a b' a' Pb Pa hb0 ha0 hba hrb hra hPb hPa haPb]
          congr 1
          have hmemA : ∀ x, x ∈ Pa.getLastD a' :: Pa.reverse ++ [] ↔
              x = S.rootNode ∨ x ∈ Pa := by
            intro x
            rw [hlastA] at *
            simp [List.mem_reverse, hlastA]
          have hmemB : ∀ x, x ∈ Pb.getLastD b' :: Pb.reverse ++ [] ↔
              x = S.rootNode ∨ x ∈ Pb := by
            intro x
            rw [hlastB] at *
            simp [List.mem_reverse, hlastB]
          cases hPaC : Pa with
          | nil =>
            cases hPbC : Pb with
            | nil => simp [List.find?]
            | cons q Qb =>
              subst hPaC
              subst hPbC
              have ha'rt : a' = S.rootNode := by simpa using hlastA
              have hrtPb : S.rootNode ∈ q :: Qb := by
                rw [← hlastB]
                exact getLastD_mem_cons q Qb b'
              obtain ⟨X, Y, hXY⟩ := List.append_of_mem hrtPb
              have hfind : (q :: Qb).find?
                  (fun x => decide (x = a ∨ x ∈ ([] : List Nat).getLastD a' ::
                    ([] : List Nat).reverse ++ [])) = some S.rootNode := by
                rw [hXY]
                apply find?_first
                · intro x hx
                  rw [decide_eq_false_iff_not]
                  rintro (rfl | hmem)
                  · exact haPb (hXY ▸ List.mem_append_left (S.rootNode :: Y) hx)
                  · have hxrt : x = a' := by simpa using hmem
                    rw [hXY] at hndB
                    obtain ⟨-, -, hdisj⟩ := List.nodup_append.mp hndB
                    exact hdisj hx (by rw [hxrt, ha'rt]; exact List.mem_cons_self _ _)
                · rw [decide_eq_true_eq]
                  right
                  simp [ha'rt]
              rw [hfind]
              simp [List.find?]
          | cons p Qa =>
            cases hPbC : Pb with
            | nil =>
              subst hPaC
              subst hPbC
              have hb'rt : b' = S.rootNode := by simpa using hlastB
              have hrtPa : S.rootNode ∈ p :: Qa := by
                rw [← hlastA]
                exact getLastD_mem_cons p Qa a'
              obtain ⟨X, Y, hXY⟩ := List.append_of_mem hrtPa
              have hfind : (p :: Qa).find?
                  (fun x => decide (x = b ∨ x ∈ ([] : List Nat).getLastD b' ::
                    ([] : List Nat).reverse ++ [])) = some S.rootNode := by
                rw [hXY]
                apply find?_first
                · intro x hx
                  rw [decide_eq_false_iff_not]
                  rintro (rfl | hmem)
                  · exact hbPa (hXY ▸ List.mem_append_left (S.rootNode :: Y) hx)
                  · have hxrt : x = b' := by simpa using hmem
                    rw [hXY] at hndA
                    obtain ⟨-, -, hdisj⟩ := List.nodup_append.mp hndA
                    exact hdisj hx (by rw [hxrt, hb'rt]; exact List.mem_cons_self _ _)
                · rw [decide_eq_true_eq]
                  right
                  simp [hb'rt]
              rw [hfind]
              simp [List.find?]
            | cons q Qb =>
              subst hPaC
              subst hPbC
              have hrtPa : S.rootNode ∈ p :: Qa := by
                rw [← hlastA]
                exact getLastD_mem_cons p Qa a'
              have hrtPb : S.rootNode ∈ q :: Qb := by
                rw [← hlastB]
                exact getLastD_mem_cons q Qb b'
              obtain ⟨z, hz⟩ := find?_isSome_of_mem (fun x => decide (x ∈ p :: Qa))
                (q :: Qb) S.rootNode hrtPb (by simpa using hrtPa)
              obtain ⟨B, Tb, hPbD, hBnot, hzPa⟩ := find?_decomp _ _ _ hz
              rw [decide_eq_true_eq] at hzPa
              obtain ⟨A, Ta, hPaD⟩ := List.append_of_mem hzPa
              obtain ⟨g1, hg1, hTa⟩ := parentsL_suffix S A (G + 1) a' z Ta (hPaD ▸ hPa)
              obtain ⟨g2, hg2, hTb⟩ := parentsL_suffix S B (G + 1) b' z Tb (hPbD ▸ hPb)
              have hTab : Ta = Tb := parentsL_unique S g1 g2 z Ta Tb hTa hTb
              subst hTab
              have hAnotPb : ∀ x ∈ A, x ∉ q :: Qb := by
                intro x hxA hxPb
                rw [hPbD] at hxPb
                rw [hPaD] at hndA
                obtain ⟨-, hndzTa, hdisjA⟩ := List.nodup_append.mp hndA
                rcases List.mem_append.mp hxPb with hxB | hxzT
                · have := hBnot x hxB
                  rw [decide_eq_false_iff_not] at this
                  exact this (hPaD ▸ List.mem_append_left (z :: Ta) hxA)
                · exact hdisjA hxA hxzT
              have hfindA : (q :: Qb).find?
                  (fun x => decide (x = a ∨ x ∈ (p :: Qa).getLastD a' ::
                    (p :: Qa).reverse ++ [])) = some z := by
                rw [hPbD]
                apply find?_first
                · intro x hx
                  rw [decide_eq_false_iff_not]
                  rintro (rfl | hmem)
                  · exact haPb (hPbD ▸ List.mem_append_left (z :: Ta) hx)
                  · rw [hmemA x] at hmem
                    have hxPa : x ∈ p :: Qa := by
                      rcases hmem with rfl | hm
                      · exact hrtPa
                      · exact hm
                    have := hBnot x hx
                    rw [decide_eq_false_iff_not] at this
                    exact this hxPa
                · rw [decide_eq_true_eq]
                  right
                  rw [hmemA z]
                  exact Or.inr hzPa
              have hfindB : (p :: Qa).find?
                  (fun x => decide (x = b ∨ x ∈ (q :: Qb).getLastD b' ::
                    (q :: Qb).reverse ++ [])) = some z := by
                rw [hPaD]
                apply find?_first
                · intro x hx
                  rw [decide_eq_false_iff_not]
                  rintro (rfl | hmem)
                  · exact hbPa (hPaD ▸ List.mem_append_left (z :: Ta) hx)
                  · rw [hmemB x] at hmem
                    have hxPb : x ∈ q :: Qb := by
                      rcases hmem with rfl | hm
                      · exact hrtPb
                      · exact hm
                    exact hAnotPb x hx hxPb
                · rw [decide_eq_true_eq]
                  right
                  rw [hmemB z]
                  right
                  rw [hPbD]
                  exact List.mem_append_right B (List.mem_cons_self z Ta)
              rw [hfindA, hfindB]

theorem wfStore_wf : WfT wfStore wfDepthFn := by
  refine ⟨rfl, ?_⟩
  intro x p hxp hxr
  by_cases h1 : x = 1 <;> by_cases h2 : x = 2 <;> by_cases h3 : x = 3 <;> by_cases h4 : x = 4 <;>
    simp_all [wfStore, wfDepthFn, defaultTax]
  all_goals subst hxp
  all_goals decide

theorem wfStore_bound : ∀ x, (wfStore.Nodes x).isSome = true → wfDepthFn x < 5 := by
  intro x hx
  by_cases h1 : x = 1 <;> by_cases h2 : x = 2 <;> by_cases h3 : x = 3 <;> by_cases h4 : x = 4 <;>
    simp_all [wfStore, wfDepthFn, defaultTax]

/-- C1 (counterexample): on a store with a dangling parent
(`Nodes = {2 ↦ 7}`, `7` not a key), `lca(2, 7) = 7` via the
`parent == b` short-circuit but `lca(7, 2) = 0` because `7` is
unresolvable — the claim fails for arbitrary stores. -/
theorem lca_symm_cx :
    lcaCore cxStore 2 2 7 = some 7 ∧ lcaCore cxStore 2 7 2 = some 0 ∧
    lcaCore cxStore 2 2 7 ≠ lcaCore cxStore 2 7 2 := by
  refine ⟨by decide, by decide, by decide⟩

/-- C1 (amended): on every *well-formed* store (single self-loop
recorded in `rootNode`, parent-closed, acyclic — spec §3's invariants,
witnessed by a depth function) LCA is symmetric for all taxids,
including arguments absent from the parent map or resolvable only
through the merge map; `F` is any fuel large enough for every chain, so
both calls terminate. -/
theorem lca_symm_wellformed (S : Taxonomy) (d : Nat → Nat) (F : Nat) (hwf : WfT S d)
    (hball : ∀ x, (S.Nodes x).isSome = true → d x < F) (hF : 0 < F) (a b : Nat) :
    lcaCore S F a b = lcaCore S F b a :=
  lca_symm_aux S d F hwf hball hF a b

/-- C1 (witness): `9` resolves only via the merge map (`9 ↦ 3`). -/
theorem lca_symm_wellformed_witness :
    WfT wfStore wfDepthFn ∧ (∀ x, (wfStore.Nodes x).isSome = true → wfDepthFn x < 5) ∧
    (0 : Nat) < 5 ∧ lcaCore wfStore 5 9 4 = lcaCore wfStore 5 4 9 :=
  ⟨wfStore_wf, wfStore_bound, by decide,
    lca_symm_wellformed wfStore wfDepthFn 5 wfStore_wf wfStore_bound (by decide) 9 4⟩

theorem cacheValid_empty (S : Taxonomy) (F : Nat) : cacheValidF S F (fun _ => none) := by
  intro a b v _ _ _ _ _ h
  cases h

/-- C4 (counterexample): on the dangling-parent store, an earlier
`LCA(7, 2)` call memoizes `0` under the unordered key; the later
`LCA(2, 7)` call answers `0` from the cache while the uncached call
returns `7` — the claim fails for arbitrary stores. -/
theorem lca_cache_cx :
    (lcaCached cxStore (fun _ => none) 2 7 2).1 = some 0 ∧
    (lcaCached cxStore (lcaCached cxStore (fun _ => none) 2 7 2).2 2 2 7).1 = some 0 ∧
    lcaCore cxStore 2 2 7 = some 7 ∧
    (lcaCached cxStore (lcaCached cxStore (fun _ => none) 2 7 2).2 2 2 7).1 ≠
      lcaCore cxStore 2 2 7 := by
  refine ⟨by decide, by decide, by decide, by decide⟩

/-- C4 (amended): on every well-formed store, with taxids in the
`uint32` range, LCA with the cache enabled returns the same value as
LCA with the cache disabled, for every cache whose entries agree with
the uncached results (which is exactly what earlier terminating `LCA`
calls produce, starting from the empty cache); moreover the updated
cache again has that property. -/
theorem lca_cache_transparent (S : Taxonomy) (d : Nat → Nat) (F : Nat) (hwf : WfT S d)
    (hball : ∀ x, (S.Nodes x).isSome = true → d x < F) (hF : 0 < F)
    (C : Nat → Option Nat) (hC : cacheValidF S F C) (a b : Nat)
    (ha : a < 2 ^ 32) (hb : b < 2 ^ 32) :
    (lcaCached S C F a b).1 = lcaCore S F a b ∧ cacheValidF S F (lcaCached S C F a b).2 := by
  by_cases h00 : a = 0 ∨ b = 0
  · constructor
    · simp [lcaCached, lcaCore, h00]
    · simpa [lcaCached, h00] using hC
  · have ha0 : a ≠ 0 := fun h => h00 (Or.inl h)
    have hb0 : b ≠ 0 := fun h => h00 (Or.inr h)
    by_cases hab : a = b
    · constructor
      · simp [lcaCached, lcaCore, h00, hab, ha0, hb0]
      · simpa [lcaCached, h00, hab, ha0, hb0] using hC
    ·
      have hupd : ∀ v : Nat, lcaCore S F a b = some v →
          cacheValidF S F (upd C (pack a b) v) := by
        intro v hv c e w hc he hc0 he0 hce hcw
        unfold upd at hcw
        split at hcw
        · next heq =>
          injection hcw with hcw
          subst hcw
          rcases pack_inj c e a b hc he ha hb heq with ⟨rfl, rfl⟩ | ⟨rfl, rfl⟩
          · exact hv
          · rw [lca_symm_aux S d F hwf hball hF b a]
            exact hv
        · exact hC c e w hc he hc0 he0 hce hcw
      cases hq : C (pack a b) with
      | some v =>
        have hv := hC a b v ha hb ha0 hb0 hab hq
        constructor
        · simp only [lcaCached, if_neg h00, if_neg hab, hq]
          rw [hv]
        · simpa [lcaCached, h00, hab, hq] using hC
      | none =>
        have hcore : lcaCore S F a b =
            match walkA S b F a [] with
            | .out => none
            | .failed => some 0
            | .foundB => some b
            | .done mA => wbVal S a (walkB S a mA F b) := by
          simp only [lcaCore, if_neg h00, if_neg hab]
        have hcached : lcaCached S C F a b =
            match walkA S b F a [] with
            | .out => (none, C)
            | .failed => (some 0, upd C (pack a b) 0)
            | .foundB => (some b, upd C (pack a b) b)
            | .done mA =>
              match walkB S a mA F b with
              | .out => (none, C)
              | .failed => (some 0, upd C (pack a b) 0)
              | .foundA => (some a, upd C (pack a b) a)
              | .hit p => (some p, upd C (pack a b) p)
              | .root => (some S.rootNode, C) := by
          simp only [lcaCached, if_neg h00, if_neg hab, hq]
        rcases hwA : walkA S b F a [] with _ | _ | _ | mA <;>
          simp only [hwA] at hcore hcached <;> rw [hcached]
        · exact ⟨by rw [hcore], hC⟩
        · exact ⟨by rw [hcore], hupd 0 hcore⟩
        · exact ⟨by rw [hcore], hupd b hcore⟩
        · rcases hwB : walkB S a mA F b with _ | _ | _ | p | _ <;>
            simp only [hwB, wbVal] at hcore <;> simp only [hwB]
          · exact ⟨by rw [hcore], hC⟩
          · exact ⟨by rw [hcore], hupd 0 hcore⟩
          · exact ⟨by rw [hcore], hupd a hcore⟩
          · exact ⟨by rw [hcore], hupd p hcore⟩
          · exact ⟨by rw [hcore], hC⟩

/-- C4 (witness): empty cache on the well-formed store. -/
theorem lca_cache_transparent_witness :
    WfT wfStore wfDepthFn ∧ (∀ x, (wfStore.Nodes x).isSome = true → wfDepthFn x < 5) ∧
    (0 : Nat) < 5 ∧ cacheValidF wfStore 5 (fun _ => none) ∧
    (3 : Nat) < 2 ^ 32 ∧ (4 : Nat) < 2 ^ 32 ∧
    ((lcaCached wfStore (fun _ => none) 5 3 4).1 = lcaCore wfStore 5 3 4 ∧
      cacheValidF wfStore 5 (lcaCached wfStore (fun _ => none) 5 3 4).2) :=
  ⟨wfStore_wf, wfStore_bound, by decide, cacheValid_empty wfStore 5, by decide, by decide,
    lca_cache_transparent wfStore wfDepthFn 5 wfStore_wf wfStore_bound (by decide)
      (fun _ => none) (cacheValid_empty wfStore 5) 3 4 (by decide) (by decide)⟩

theorem if_lt_max (m c : Nat) : (if m < c then c else m) = max m c := by
  rcases Nat.lt_or_ge m c with h | h
  · simp [h, Nat.max_eq_right (Nat.le_of_lt h)]
  · simp [Nat.not_lt.mpr h, Nat.max_eq_left h]

/-- The `maxT` accumulator of the rank-aware record loop also folds
`max` over the child taxids only (both rank branches update it the same
way). -/
theorem buildRankLoop_max (recs : List (Nat × Nat × String)) :
    ∀ st st' : RState, buildRankLoop recs st = .ok st' →
      st'.maxT = recs.foldl (fun acc r => max acc r.1) st.maxT := by
  induction recs with
  | nil =>
    intro st st' h
    injection h with h
    rw [h]
    rfl
  | cons r rest ih =>
    intro st st' h
    unfold buildRankLoop at h
    split at h
    · cases h
    · next st1 hst1 =>
      have hst2 : rstep st r = Except.ok st1 := hst1
      have hmax : st1.maxT = max st.maxT r.1 := by
        cases hr2 : st.r2r r.2.2 with
        | some rid =>
          rw [rstep_known st r rid hr2] at hst2
          injection hst2 with hst2
          rw [← hst2]
          exact if_lt_max st.maxT r.1
        | none =>
          by_cases hfull : 255 < st.ranks.length + 1
          · rw [rstep_new_full st r hr2 hfull] at hst2
            cases hst2
          · rw [rstep_new st r hr2 hfull] at hst2
            injection hst2 with hst2
            rw [← hst2]
            exact if_lt_max st.maxT r.1
      rw [ih st1 st' h, List.foldl_cons, hmax]

/-- C6 (amended): after a successful `NewTaxonomy` or
`NewTaxonomyWithRank`, `MaxTaxid()` is the maximum of the *child* taxids
read from the nodes file (`0` when there are none); parent values do not
take part in the maximum in either constructor. -/
theorem maxTaxid_children_only (lines rlines : List (List Char))
    (childColumn parentColumn rankColumn : Nat)
    (recs : List (Nat × Nat)) (rrecs : List (Nat × Nat × String))
    (hc : 1 ≤ childColumn) (hp : 1 ≤ parentColumn) (hr : 1 ≤ rankColumn)
    (hrecs : collectRecs (nodesParseLine childColumn parentColumn) lines = .ok recs)
    (hrrecs : collectRecs (rankParseLine childColumn parentColumn rankColumn) rlines =
      .ok rrecs) :
    maxTaxidOf (newTaxonomy lines childColumn parentColumn) =
      some (recs.foldl (fun acc r => max acc r.1) 0) ∧
    (∀ m, maxTaxidOf (newTaxonomyWithRank rlines childColumn parentColumn rankColumn) = some m →
      m = rrecs.foldl (fun acc r => max acc r.1) 0) := by
  constructor
  · unfold newTaxonomy
    split
    · omega
    · rw [hrecs]
      simp only [maxTaxidOf, Taxonomy.MaxTaxid, Option.some.injEq]
      exact buildNodesLoop_max recs (fun _ => none) 0 0
  · intro m hm
    have hcols : ¬(childColumn < 1 ∨ parentColumn < 1 ∨ rankColumn < 1) := by omega
    have hrw : newTaxonomyWithRank rlines childColumn parentColumn rankColumn =
        match buildWithRank rrecs with
        | .error e => .bad e
        | .ok t => .ok t := by
      unfold newTaxonomyWithRank
      rw [if_neg hcols, hrrecs]
    rw [hrw] at hm
    unfold buildWithRank at hm
    cases hb : buildRankLoop rrecs rinit with
    | error e =>
      rw [hb] at hm
      simp [Except.map, maxTaxidOf] at hm
    | ok st =>
      rw [hb] at hm
      simp only [Except.map, maxTaxidOf, Taxonomy.MaxTaxid, Option.some.injEq] at hm
      rw [← hm]
      exact buildRankLoop_max rrecs rinit st hb

/-- C6 (witness for the amended theorem): records `(1,1),(2,9)` for the
plain builder and `(1,1,"no rank"),(2,9,"genus")` for the rank-aware
one; both maxima are `2`, ignoring the parent `9`. -/
theorem maxTaxid_children_only_witness :
    1 ≤ 1 ∧ 1 ≤ 3 ∧ 1 ≤ 5 ∧
    collectRecs (nodesParseLine 1 3) maxCxLines = .ok [(1, 1), (2, 9)] ∧
    collectRecs (rankParseLine 1 3 5) maxCxRankLines = .ok [(1, 1, "no rank"), (2, 9, "genus")] ∧
    maxTaxidOf (newTaxonomy maxCxLines 1 3) =
      some (List.foldl (fun acc r => max acc r.1) 0 [((1 : Nat), (1 : Nat)), (2, 9)]) ∧
    maxTaxidOf (newTaxonomyWithRank maxCxRankLines 1 3 5) = some 2 ∧
    (2 : Nat) =
      List.foldl (fun acc r => max acc r.1) 0
        [((1 : Nat), (1 : Nat), "no rank"), (2, 9, "genus")] :=
  ⟨by decide, by decide, by decide, by decide, by decide,
    (maxTaxid_children_only maxCxLines maxCxRankLines 1 3 5 [(1, 1), (2, 9)]
      [(1, 1, "no rank"), (2, 9, "genus")] (by decide) (by decide) (by decide)
      (by decide) (by decide)).1,
    by decide,
    (maxTaxid_children_only maxCxLines maxCxRankLines 1 3 5 [(1, 1), (2, 9)]
      [(1, 1, "no rank"), (2, 9, "genus")] (by decide) (by decide) (by decide)
      (by decide) (by decide)).2 2 (by decide)⟩
